import Mathlib

/-!
# Verification of the etable indexed-view core

Shallow embedding of the `etable` indexed-view engine (`etable/idxtable.go`)
and the nearest-row helpers of the `metric` package, together with proofs of
the specified properties.

Modelling conventions:
* Go `float64`/`float32` element values are modelled by `FV`: either `nan` or
  an exact value `FV.v (q : Int)`.  Go's `<` on floats returns `false`
  whenever an operand is NaN, which `fvLt` reproduces.  The claims under
  verification only involve comparison, NaN-propagation and exact integral
  arithmetic, never rounding.
* Go slices of `int` row indexes are modelled by `List Nat`.
* Go's panicking accesses (out-of-range indexing, explicit `panic`) are
  modelled by `Option`-returning functions where a claim is about the
  failure; elsewhere the claims carry in-range hypotheses.
* The column/tensor storage (`etensor` package) and the `Table` container are
  collaborators of `idxtable.go` that are not part of the analysed sources;
  they are modelled from the specification's column-storage contract
  (flat element access, null bits, cell size, bulk cell copy, schema).
-/

set_option maxHeartbeats 1000000

namespace ETable

/-! ## List helpers: indexed read with default, functional update -/

/-- Read with default: `nthD d l i` is element `i` of `l`, or `d` when out of range
(Go's slice indexing panics out of range; every use below is either
in range under the stated hypotheses or explicitly about the failure). -/
def nthD (d : α) : List α → Nat → α
  | [], _ => d
  | x :: _, 0 => x
  | _ :: xs, n + 1 => nthD d xs n

/-- Functional update of position `i` (no-op out of range). -/
def setAt : List α → Nat → α → List α
  | [], _, _ => []
  | _ :: xs, 0, v => v :: xs
  | x :: xs, n + 1, v => x :: setAt xs n v

/-! ## Machine float model -/

/-- Model of a Go `float64`/`float32` element value: NaN or an exact value. -/
inductive FV where
  | nan : FV
  | v : Int → FV
deriving DecidableEq, Repr

/-- Go `<` on floats: `false` whenever an operand is NaN. -/
def fvLt : FV → FV → Bool
  | FV.v a, FV.v b => decide (a < b)
  | _, _ => false

/-- Model of `math.IsNaN`. -/
def fvIsNaN : FV → Bool
  | FV.nan => true
  | _ => false

/-- Float addition (used only for the sum-reducer examples): NaN propagates. -/
def fvAdd : FV → FV → FV
  | FV.v a, FV.v b => FV.v (a + b)
  | _, _ => FV.nan

/-! ## Data model: Column, Table, IdxTable

Modelled from the spec: the column/tensor storage engine is an external
collaborator of `idxtable.go` ("typed element access, dimensional shape, and
copy primitives").  A `Column` carries its name, element kind, cell size
`csz` (the product of the trailing dimensions), the flat element storage in
both typed views (`fvals` for the numeric reading, `svals` for the string
reading), and the per-flat-index null bits.  A `Table` is an ordered list of
columns sharing one row count. -/

/-- Element kind of a column (spec §3: "{numeric, string}",
code: `cl.DataType() == etensor.STRING`). -/
inductive ColKind where
  | numeric : ColKind
  | str : ColKind
deriving DecidableEq, Repr

/-- Modelled from the spec: a column of the external column storage
(spec §3 and §6). -/
@[ext]
structure Column where
  name : String
  kind : ColKind
  csz : Nat
  fvals : List FV
  svals : List String
  nulls : List Bool
deriving DecidableEq, Repr

/-- Default column (never reached under the in-range hypotheses). -/
def emptyCol : Column := ⟨"", ColKind.numeric, 0, [], [], []⟩

/-- Modelled from the spec: a table is an ordered sequence of columns
sharing a common row count (spec §3). -/
@[ext]
structure Table where
  cols : List Column
  rows : Nat
deriving DecidableEq, Repr

/-- Model of `FloatVal1D`: numeric read of flat element `i` (spec §6 `floatAt`). -/
def FloatVal1D (cl : Column) (i : Nat) : FV := nthD FV.nan cl.fvals i

/-- Model of `StringVal1D`: string read of flat element `i` (spec §6 `stringAt`). -/
def StringVal1D (cl : Column) (i : Nat) : String := nthD "" cl.svals i

/-- Model of `IsNull1D`: null bit of flat element `i` (spec §6 `isNull`). -/
def IsNull1D (cl : Column) (i : Nat) : Bool := nthD false cl.nulls i

/-- Well-formedness of a table: every column's flat storage has exactly
`rows * csz` elements (spec §3: shape `[rows, d1, d2, ...]`). -/
def Table.wf (t : Table) : Prop :=
  ∀ c ∈ t.cols, c.fvals.length = t.rows * c.csz ∧
    c.svals.length = t.rows * c.csz ∧ c.nulls.length = t.rows * c.csz

instance (t : Table) : Decidable t.wf := by
  unfold Table.wf
  infer_instance

/-- Model of `IdxTable`: the indexed view — a table together with the current index
sequence (`idxtable.go`, `IdxTable`).  The `lessFunc` scratch field of the Go
struct is only written and read back inside a single `Sort` call, so the sort
model below passes the comparator directly instead. -/
structure IdxTable where
  table : Table
  idxs : List Nat
deriving DecidableEq, Repr

/-- Model of `Sequential`: sequential row-wise indexes `0 .. rows-1`
(`idxtable.go:53-62`; the `Table == nil` branch cannot arise in the model,
where the table is a value). -/
def IdxTable.sequential (ix : IdxTable) : IdxTable :=
  { ix with idxs := List.range ix.table.rows }

/-- Model of `NewIdxTable`: view on `et` with sequential initial indexes
(`idxtable.go:40-50`, via `SetTable`). -/
def newIdxTable (et : Table) : IdxTable :=
  IdxTable.sequential { table := et, idxs := [] }

/-- Model of `AddIndex` (`idxtable.go:65-67`). -/
def IdxTable.addIndex (ix : IdxTable) (idx : Nat) : IdxTable :=
  { ix with idxs := ix.idxs ++ [idx] }

/-- Model of `Len` (`idxtable.go:222-224`). -/
def IdxTable.len (ix : IdxTable) : Nat := ix.idxs.length

/-- Valid views: every index is a physical row of the table (spec §3). -/
def IdxTable.validIdxs (ix : IdxTable) : Prop := ∀ i ∈ ix.idxs, i < ix.table.rows

instance (ix : IdxTable) : Decidable ix.validIdxs := by
  unfold IdxTable.validIdxs
  infer_instance

/-! ## The position swap used by the sort (`Swap`, `idxtable.go:232-234`) -/

/-- Model of `Swap` on the index slice: exchange positions `i` and `j`. -/
def lswap (l : List Nat) (i j : Nat) : List Nat :=
  if i < l.length ∧ j < l.length then
    setAt (setAt l i (nthD 0 l j)) j (nthD 0 l i)
  else l

/-! ## Go's `sort.Sort`

`IdxTable.Sort` (`idxtable.go:72-75`) delegates to the Go standard library's
`sort.Sort`, the classic introsort (quicksort with a median-of-three pivot,
a shell/insertion pass on ranges of at most 12 elements, and a heapsort
fallback when the depth budget `2*ceil(lg(n+1))` is exhausted) — the
algorithm shipped with the Go toolchains contemporary with this repository.
`sort.Sort` makes no stability guarantee.

The `sort.Interface` instance is the `IdxTable` itself:
`Len = len(Idxs)`, `Less i j = lessFunc(Table, Idxs[i], Idxs[j])`,
`Swap = swap positions i and j of Idxs`.  Below the data is the index list
`l : List Nat` and `less` is the comparator on *physical* rows, so the
interface's `Less` is `dLess`.

Loops are written as recursions on an explicit iteration counter.  Wherever
the counter is not the loop's exact trip count it is an ample upper bound
(noted at each definition); running out would return the current state, and
never happens for the counters passed below. -/

/-- The interface's `Less(i, j)`: compare positions through the current
index list (`idxtable.go:227-229`). -/
def dLess (less : Nat → Nat → Bool) (l : List Nat) (i j : Nat) : Bool :=
  less (nthD 0 l i) (nthD 0 l j)

/-- Inner loop of `insertionSort`:
`for j := i; j > a && data.Less(j, j-1); j-- { data.Swap(j, j-1) }`.
The counter is `j` itself (exact). -/
def insSortInner (less : Nat → Nat → Bool) (a : Nat) : Nat → List Nat → List Nat
  | 0, l => l
  | j + 1, l =>
    if a ≤ j then
      if dLess less l (j + 1) j then insSortInner less a j (lswap l (j + 1) j) else l
    else l

/-- Outer loop of `insertionSort`: `for i := a + 1; i < b; i++`.
The counter is the remaining trip count `b - i` (exact). -/
def insSortOuter (less : Nat → Nat → Bool) (a : Nat) : Nat → Nat → List Nat → List Nat
  | _, 0, l => l
  | i, k + 1, l => insSortOuter less a (i + 1) k (insSortInner less a i l)

/-- Model of `insertionSort(data, a, b)`. -/
def insertionSortGo (less : Nat → Nat → Bool) (l : List Nat) (a b : Nat) : List Nat :=
  insSortOuter less a (a + 1) (b - (a + 1)) l

/-- The gap-6 shell pass performed before the insertion sort on short ranges:
`for i := a + 6; i < b; i++ { if data.Less(i, i-6) { data.Swap(i, i-6) } }`.
The counter is the remaining trip count `b - i` (exact). -/
def shellPass (less : Nat → Nat → Bool) : Nat → Nat → List Nat → List Nat
  | _, 0, l => l
  | i, k + 1, l =>
    shellPass less (i + 1) k (if dLess less l i (i - 6) then lswap l i (i - 6) else l)

/-- Model of `siftDown(data, lo, hi, first)` with `root` starting at `lo`:
each iteration moves `root` to a child `>= root+1 < hi`, so `hi` bounds the
trip count (ample). -/
def siftDownGo (less : Nat → Nat → Bool) (first hi : Nat) : Nat → Nat → List Nat → List Nat
  | _, 0, l => l
  | root, k + 1, l =>
    let child := 2 * root + 1
    if child < hi then
      let child' := if child + 1 < hi ∧ dLess less l (first + child) (first + child + 1)
        then child + 1 else child
      if dLess less l (first + root) (first + child') then
        siftDownGo less first hi child' k (lswap l (first + root) (first + child'))
      else l
    else l

/-- First phase of `heapSort`: `for i := (hi-1)/2; i >= 0; i--` builds the
heap; the counter is the remaining trip count (exact), processing `i = k`. -/
def heapBuild (less : Nat → Nat → Bool) (first hi : Nat) : Nat → List Nat → List Nat
  | 0, l => l
  | k + 1, l => heapBuild less first hi k (siftDownGo less first hi k hi l)

/-- Second phase of `heapSort`: `for i := hi - 1; i >= 0; i--`
`{ data.Swap(first, first+i); siftDown(data, lo, i, first) }`;
the counter is the remaining trip count (exact), processing `i = k`. -/
def heapExtract (less : Nat → Nat → Bool) (first : Nat) : Nat → List Nat → List Nat
  | 0, l => l
  | k + 1, l =>
    heapExtract less first k (siftDownGo less first k 0 k (lswap l first (first + k)))

/-- Model of `heapSort(data, a, b)`. -/
def heapSortGo (less : Nat → Nat → Bool) (l : List Nat) (a b : Nat) : List Nat :=
  let first := a
  let hi := b - a
  heapExtract less first hi (heapBuild less first hi ((hi - 1) / 2 + 1) l)

/-- Model of `medianOfThree(data, m1, m0, m2)`. -/
def medianOfThree (less : Nat → Nat → Bool) (l : List Nat) (m1 m0 m2 : Nat) : List Nat :=
  let l1 := if dLess less l m1 m0 then lswap l m1 m0 else l
  if dLess less l1 m2 m1 then
    let l2 := lswap l1 m2 m1
    if dLess less l2 m1 m0 then lswap l2 m1 m0 else l2
  else l1

/-- Model of `doPivot` scan `for ; a < c && data.Less(a, pivot); a++`;
counter `c - a` (exact). -/
def dpScanA (less : Nat → Nat → Bool) (l : List Nat) (pivot : Nat) : Nat → Nat → Nat
  | a, 0 => a
  | a, k + 1 => if dLess less l a pivot then dpScanA less l pivot (a + 1) k else a

/-- Model of `doPivot` scan `for ; b < c && !data.Less(pivot, b); b++`;
counter `c - b` (exact). -/
def dpScanB (less : Nat → Nat → Bool) (l : List Nat) (pivot : Nat) : Nat → Nat → Nat
  | b, 0 => b
  | b, k + 1 => if dLess less l pivot b then b else dpScanB less l pivot (b + 1) k

/-- Model of `doPivot` scan `for ; b < c && data.Less(pivot, c-1); c--`;
counter `c - b` (exact). -/
def dpScanC (less : Nat → Nat → Bool) (l : List Nat) (pivot : Nat) : Nat → Nat → Nat
  | c, 0 => c
  | c, k + 1 => if dLess less l pivot (c - 1) then dpScanC less l pivot (c - 1) k else c

/-- The partition loop of `doPivot`: scan `b` up, scan `c` down, swap
`data.Swap(b, c-1)`, repeat until `b >= c`.  Each iteration shrinks `c - b`
by at least 2, so any counter `>= (c-b)/2 + 1` is ample. -/
def dpMain (less : Nat → Nat → Bool) (pivot : Nat) :
    Nat → List Nat → Nat → Nat → List Nat × Nat × Nat
  | 0, l, b, c => (l, b, c)
  | k + 1, l, b, c =>
    let b' := dpScanB less l pivot b (c - b)
    let c' := dpScanC less l pivot c (c - b')
    if b' ≥ c' then (l, b', c')
    else dpMain less pivot k (lswap l b' (c' - 1)) (b' + 1) (c' - 1)

/-- Model of `doPivot` scan `for ; a < b && !data.Less(b-1, pivot); b--`;
counter `b - a` (exact). -/
def dpScanB2 (less : Nat → Nat → Bool) (l : List Nat) (pivot : Nat) : Nat → Nat → Nat
  | b, 0 => b
  | b, k + 1 => if dLess less l (b - 1) pivot then b else dpScanB2 less l pivot (b - 1) k

/-- Model of `doPivot` scan `for ; a < b && data.Less(a, pivot); a++`;
counter `b - a` (exact). -/
def dpScanA2 (less : Nat → Nat → Bool) (l : List Nat) (pivot : Nat) : Nat → Nat → Nat
  | a, 0 => a
  | a, k + 1 => if dLess less l a pivot then dpScanA2 less l pivot (a + 1) k else a

/-- The duplicate-protection loop of `doPivot`: scan `b` down, scan `a` up,
swap `data.Swap(a, b-1)`, repeat until `a >= b`.  Each iteration shrinks
`b - a` by at least 2, so any counter `>= (b-a)/2 + 1` is ample. -/
def dpProtectLoop (less : Nat → Nat → Bool) (pivot : Nat) :
    Nat → List Nat → Nat → Nat → List Nat × Nat
  | 0, l, _, b => (l, b)
  | k + 1, l, a, b =>
    let b' := dpScanB2 less l pivot b (b - a)
    let a' := dpScanA2 less l pivot a (b' - a)
    if a' ≥ b' then (l, b')
    else dpProtectLoop less pivot k (lswap l a' (b' - 1)) (a' + 1) (b' - 1)

/-- Model of `doPivot(data, lo, hi)` returning the data and `(midlo, midhi)`.
Straight transcription of the Go source; the loop counters passed to
`dpMain`/`dpProtectLoop` are `hi`, ample per the bounds noted there. -/
def doPivotGo (less : Nat → Nat → Bool) (l : List Nat) (lo hi : Nat) :
    List Nat × Nat × Nat :=
  let m := (lo + hi) / 2
  let l := if hi - lo > 40 then
      let s := (hi - lo) / 8
      let l := medianOfThree less l lo (lo + s) (lo + 2 * s)
      let l := medianOfThree less l m (m - s) (m + s)
      medianOfThree less l (hi - 1) (hi - 1 - s) (hi - 1 - 2 * s)
    else l
  let l := medianOfThree less l lo m (hi - 1)
  let pivot := lo
  let a := dpScanA less l pivot (lo + 1) ((hi - 1) - (lo + 1))
  let r := dpMain less pivot hi l a (hi - 1)
  let l := r.1
  let b := r.2.1
  let c := r.2.2
  let protect := decide (hi - c < 5)
  let st :=
    if ¬ protect = true ∧ hi - c < (hi - lo) / 4 then
      -- "Lets test some points for equality to pivot"
      let d1 : Nat := if ¬ dLess less l pivot (hi - 1) then 1 else 0
      let l := if ¬ dLess less l pivot (hi - 1) then lswap l c (hi - 1) else l
      let c := if d1 = 1 then c + 1 else c
      let d2 : Nat := if ¬ dLess less l (b - 1) pivot then 1 else 0
      let b := if d2 = 1 then b - 1 else b
      let d3 : Nat := if ¬ dLess less l m pivot then 1 else 0
      let l := if d3 = 1 then lswap l m (b - 1) else l
      let b := if d3 = 1 then b - 1 else b
      (l, b, c, decide (d1 + d2 + d3 > 1))
    else (l, b, c, protect)
  let l := st.1
  let b := st.2.1
  let c := st.2.2.1
  let bFinal := if st.2.2.2 then (dpProtectLoop less pivot hi l a b).2
    else b
  let lFinal := if st.2.2.2 then (dpProtectLoop less pivot hi l a b).1
    else l
  (lswap lFinal pivot (bFinal - 1), bFinal - 1, c)

/-- Model of `quickSort(data, a, b, maxDepth)`.  The counter bounds the total nesting
of recursive calls and loop continuations, which is at most
`maxDepth + 2 <= length + 1` for the top-level call (ample). -/
def quickSortGo (less : Nat → Nat → Bool) : Nat → List Nat → Nat → Nat → Nat → List Nat
  | 0, l, _, _, _ => l
  | fuel + 1, l, a, b, maxDepth =>
    if b - a > 12 then
      if maxDepth = 0 then heapSortGo less l a b
      else
        let r := doPivotGo less l a b
        let l' := r.1
        let mlo := r.2.1
        let mhi := r.2.2
        if mlo - a < b - mhi then
          quickSortGo less fuel (quickSortGo less fuel l' a mlo (maxDepth - 1)) mhi b
            (maxDepth - 1)
        else
          quickSortGo less fuel (quickSortGo less fuel l' mhi b (maxDepth - 1)) a mlo
            (maxDepth - 1)
    else
      if b - a > 1 then insertionSortGo less (shellPass less (a + 6) (b - (a + 6)) l) a b
      else l

/-- Model of `maxDepth(n) = 2 * (number of binary digits of n)`:
`for i := n; i > 0; i >>= 1 { depth++ }; return depth * 2`.
The halving loop runs at most `n` times, so the counter `n` is ample. -/
def depthBitsAux : Nat → Nat → Nat
  | 0, _ => 0
  | fuel + 1, n => if n = 0 then 0 else depthBitsAux fuel (n / 2) + 1

/-- Number of binary digits of `n`. -/
def depthBits (n : Nat) : Nat := depthBitsAux n n

/-- Model of `maxDepth(n)` of Go's `sort.Sort`. -/
def maxDepthGo (n : Nat) : Nat := 2 * depthBits n

/-- Model of `sort.Sort(data)`: `quickSort(data, 0, data.Len(), maxDepth(n))`. -/
def sortGo (less : Nat → Nat → Bool) (l : List Nat) : List Nat :=
  quickSortGo less (l.length + 1) l 0 l.length (maxDepthGo l.length)

/-- Model of `Sort(lessFunc)` (`idxtable.go:72-75`): sort the indexes with the
comparator over physical rows. -/
def IdxTable.sortM (lessFunc : Table → Nat → Nat → Bool) (ix : IdxTable) : IdxTable :=
  { ix with idxs := sortGo (lessFunc ix.table) ix.idxs }

/-! ## The multi-column comparator (`SortCols`, `idxtable.go:104-140`)

Straight transcription, including the ascending numeric branch whose second
test repeats `cl.FloatVal1D(i) < cl.FloatVal1D(j)` (the Go source at
`idxtable.go:126`) instead of testing `>`.  Go's `>` on floats is modelled
as `fvLt` with the arguments swapped (both are `false` on NaN). -/

/-- The comparator closure built by `SortCols(colIdxs, ascending)`, applied
to physical rows `i`, `j`. -/
def sortColsLess (tbl : Table) (ascending : Bool) (i j : Nat) : List Nat → Bool
  | [] => false
  | ci :: rest =>
    let cl := nthD emptyCol tbl.cols ci
    if cl.kind = ColKind.str then
      if ascending then
        if StringVal1D cl i < StringVal1D cl j then true
        else if StringVal1D cl j < StringVal1D cl i then false
        else sortColsLess tbl ascending i j rest
      else
        if StringVal1D cl j < StringVal1D cl i then true
        else if StringVal1D cl i < StringVal1D cl j then false
        else sortColsLess tbl ascending i j rest
    else
      if ascending then
        if fvLt (FloatVal1D cl i) (FloatVal1D cl j) then true
        else if fvLt (FloatVal1D cl i) (FloatVal1D cl j) then false
        else sortColsLess tbl ascending i j rest
      else
        if fvLt (FloatVal1D cl j) (FloatVal1D cl i) then true
        else if fvLt (FloatVal1D cl i) (FloatVal1D cl j) then false
        else sortColsLess tbl ascending i j rest

/-- Model of `SortCols(colIdxs, ascending)` (`idxtable.go:104-140`). -/
def IdxTable.sortColsM (colIdxs : List Nat) (ascending : Bool) (ix : IdxTable) : IdxTable :=
  ix.sortM (fun et i j => sortColsLess et ascending i j colIdxs)

/-! ## `Filter` (`idxtable.go:145-152`)

`sz := len(Idxs)`, then `for i := sz - 1; i >= 0; i--`, and each index whose
row fails the predicate is spliced out by
`Idxs = append(Idxs[:i], Idxs[i+1:]...)`. -/

/-- One step of the reverse loop at position `i`. -/
def filterStep (p : Nat → Bool) (l : List Nat) (i : Nat) : List Nat :=
  if i < l.length then
    if p (nthD 0 l i) then l else l.take i ++ l.drop (i + 1)
  else l

/-- The loop: `filterLoop p n l` processes positions `n-1, n-2, ..., 0`. -/
def filterLoop (p : Nat → Bool) : Nat → List Nat → List Nat
  | 0, l => l
  | i + 1, l => filterLoop p i (filterStep p l i)

/-- The whole `Filter` body on the index list. -/
def filterGo (p : Nat → Bool) (l : List Nat) : List Nat := filterLoop p l.length l

/-- Model of `Filter(filterFunc)` (`idxtable.go:145-152`). -/
def IdxTable.filterM (filterFunc : Table → Nat → Bool) (ix : IdxTable) : IdxTable :=
  { ix with idxs := filterGo (filterFunc ix.table) ix.idxs }

/-! ## Materialization (`NewTable`, `idxtable.go:156-172`)

`NewTable` builds `nt := New(Schema(), len(Idxs))` and, unless the view is
empty, copies for every column and every logical position `i` the cell of
`csz` contiguous flat elements from source offset `Idxs[i]*csz` to
destination offset `i*csz` via `CopyCellsFrom`. -/

/-- Modelled from the spec: the bulk cell-range copy primitive of the column
storage (`copyCells(srcOffset, dstOffset, count)`, spec §6): copy `n`
contiguous elements of `src` starting at `sOff` into `dst` starting at
`dOff`. -/
def copyRangeN (d : α) (src : List α) (sOff : Nat) (dst : List α) (dOff : Nat) :
    Nat → List α
  | 0 => dst
  | n + 1 => setAt (copyRangeN d src sOff dst dOff n) (dOff + n) (nthD d src (sOff + n))

/-- Modelled from the spec: `CopyCellsFrom(frm, to, start, n)` applied to all
three storage views of the column. -/
def copyCellsFrom (tcl scl : Column) (toOff fromOff n : Nat) : Column :=
  { tcl with
    fvals := copyRangeN FV.nan scl.fvals fromOff tcl.fvals toOff n
    svals := copyRangeN "" scl.svals fromOff tcl.svals toOff n
    nulls := copyRangeN false scl.nulls fromOff tcl.nulls toOff n }

/-- The per-column copy loop of `NewTable`:
`for i, srw := range ix.Idxs { tcl.CopyCellsFrom(scl, i*csz, srw*csz, csz) }`,
with `i` carried explicitly. -/
def copyColLoop (scl : Column) (csz : Nat) : List Nat → Nat → Column → Column
  | [], _, tcl => tcl
  | srw :: rest, i, tcl =>
    copyColLoop scl csz rest (i + 1) (copyCellsFrom tcl scl (i * csz) (srw * csz) csz)

/-- The column loop of `NewTable`: `for ci := range nt.Cols`, pairing each
destination column with `ix.Table.Cols[ci]` and using the destination's
cell size (`tcl.RowCellSize()`). -/
def copyCols (srcCols : List Column) (idxs : List Nat) : List Column → Nat → List Column
  | [], _ => []
  | tcl :: rest, ci =>
    copyColLoop (nthD emptyCol srcCols ci) tcl.csz idxs 0 tcl ::
      copyCols srcCols idxs rest (ci + 1)

/-- Modelled from the spec: schema introspection — the ordered list of
`(name, kind, cellSize)` of the columns (spec §6). -/
def Table.schema (t : Table) : List (String × ColKind × Nat) :=
  t.cols.map (fun c => (c.name, c.kind, c.csz))

/-- Modelled from the spec: `New(sc, rows)` constructs a same-shape table
with `rows` rows and zeroed, non-null storage (spec §6: "sufficient to
construct a same-shape empty table"). -/
def Table.new (sc : List (String × ColKind × Nat)) (rows : Nat) : Table :=
  { rows := rows
    cols := sc.map (fun s =>
      { name := s.1, kind := s.2.1, csz := s.2.2
        fvals := List.replicate (rows * s.2.2) (FV.v 0)
        svals := List.replicate (rows * s.2.2) ""
        nulls := List.replicate (rows * s.2.2) false }) }

/-- Model of `NewTable` (`idxtable.go:156-172`). -/
def IdxTable.newTable (ix : IdxTable) : Table :=
  let rows := ix.idxs.length
  let nt := Table.new ix.table.schema rows
  if rows = 0 then nt
  else { nt with cols := copyCols ix.table.cols ix.idxs nt.cols 0 }

/-! ### Pointwise behaviour of the copy loop -/

/-- The same loop at the level of one storage list. -/
def copyListLoop (d : α) (src : List α) (csz : Nat) : List Nat → Nat → List α → List α
  | [], _, dst => dst
  | srw :: rest, i, dst =>
    copyListLoop d src csz rest (i + 1) (copyRangeN d src (srw * csz) dst (i * csz) csz)

/-! ## Aggregation (`AggCol`, `idxtable.go:178-205`)

`cl := ix.Table.Cols[colIdx]` is a bounds-checked Go slice access: any
`colIdx` outside `0 .. len(Cols)-1` panics with "index out of range".  The
panic is modelled by `none`. -/

/-- The bounds-checked column access `ix.Table.Cols[colIdx]` for a Go `int`
index. -/
def colAt (t : Table) (colIdx : Int) : Option Column :=
  if 0 ≤ colIdx ∧ colIdx < (t.cols.length : Int) then
    some (nthD emptyCol t.cols colIdx.toNat)
  else none

/-- The guarded reduction step shared by both branches of `AggCol`:
at flat element `fi`, skip nulls and NaNs, otherwise apply the reducer. -/
def aggStep (f : Nat → FV → FV → FV) (cl : Column) (fi : Nat) (acc : FV) : FV :=
  if ¬ IsNull1D cl fi ∧ ¬ fvIsNaN (FloatVal1D cl fi) then
    f fi (FloatVal1D cl fi) acc
  else acc

/-- The `csz == 1` branch: `for _, srw := range ix.Idxs { ... ag[0] ... }`. -/
def aggLoop1 (f : Nat → FV → FV → FV) (cl : Column) : List Nat → List FV → List FV
  | [], ag => ag
  | srw :: rest, ag =>
    aggLoop1 f cl rest
      (if ¬ IsNull1D cl srw ∧ ¬ fvIsNaN (FloatVal1D cl srw) then
        setAt ag 0 (f srw (FloatVal1D cl srw) (nthD FV.nan ag 0))
      else ag)

/-- The inner loop of the `csz > 1` branch: `for j := range ag`, reading
flat element `si + j` (with `si = srw*csz`). -/
def aggRowCells (f : Nat → FV → FV → FV) (cl : Column) (si : Nat) :
    Nat → List FV → List FV
  | _, [] => []
  | j, a :: as => aggStep f cl (si + j) a :: aggRowCells f cl si (j + 1) as

/-- The outer loop of the `csz > 1` branch. -/
def aggLoopN (f : Nat → FV → FV → FV) (cl : Column) (csz : Nat) :
    List Nat → List FV → List FV
  | [], ag => ag
  | srw :: rest, ag => aggLoopN f cl csz rest (aggRowCells f cl (srw * csz) 0 ag)

/-- Model of `AggCol(colIdx, ini, fun)` (`idxtable.go:178-205`); `none` models the
panic on an out-of-range column index. -/
def IdxTable.aggCol (ix : IdxTable) (colIdx : Int) (ini : FV)
    (f : Nat → FV → FV → FV) : Option (List FV) :=
  match colAt ix.table colIdx with
  | none => none
  | some cl =>
    let csz := cl.csz
    let ag := List.replicate csz ini
    if csz = 1 then some (aggLoop1 f cl ix.idxs ag)
    else some (aggLoopN f cl csz ix.idxs ag)

/-- The specification's reading of the aggregation (spec §4.3, one slot at a
time): slot `j` accumulates, over the view's indices in order, the non-null
non-NaN elements at flat offsets `row*csz + j`. -/
def aggSlot (f : Nat → FV → FV → FV) (cl : Column) (csz j : Nat) (idxs : List Nat)
    (ini : FV) : FV :=
  idxs.foldl (fun acc srw => aggStep f cl (srw * csz + j) acc) ini

/-- The specification's aggregate result: `csz` slots, each initialized to
`ini` and folded in index order. -/
def aggColSpec (f : Nat → FV → FV → FV) (cl : Column) (csz : Nat) (idxs : List Nat)
    (ini : FV) : List FV :=
  (List.range csz).map (fun j => aggSlot f cl csz j idxs ini)

/-! ## Nearest-row helpers (`metric` package, `ClosestRow32` / `ClosestRow64`)

A tensor is its row count (`Dim(0)`) plus the flat values (`Len()` is their
number).  `csz := col.Len() / rows` divides before the size check, so
`rows = 0` panics (integer division by zero) — also modelled by `none`.
`ClosestRow64` dispatches on the dynamic tensor types only to avoid
conversions; all three branches run the identical scan below. -/

/-- Model of an `etensor` tensor for the metric helpers. -/
structure ETensor where
  rows : Nat
  vals : List FV
deriving DecidableEq, Repr

/-- Largest finite `float32` value, `math.MaxFloat32` `= (2^24-1)·2^104`. -/
def maxFloat32 : FV := FV.v ((2 ^ 24 - 1) * 2 ^ 104)

/-- Largest finite `float64` value, `math.MaxFloat64` `= (2^53-1)·2^971`. -/
def maxFloat64 : FV := FV.v ((2 ^ 53 - 1) * 2 ^ 971)

/-- The scan over the rows: keep the first row whose metric value is
strictly below the running minimum. -/
def closestLoop (mfun : List FV → List FV → FV) (pvals cvals : List FV) (csz : Nat) :
    List Nat → Int × FV → Int × FV
  | [], acc => acc
  | ri :: rest, acc =>
    let rvals := (cvals.drop (ri * csz)).take csz
    let v := mfun pvals rvals
    closestLoop mfun pvals cvals csz rest
      (if fvLt v acc.2 then ((ri : Int), v) else acc)

/-- Model of `ClosestRow32` (`metric` package): `none` models the panics (division by
zero on a rowless tensor, and the explicit shape-mismatch panic raised
before any row is examined). -/
def ClosestRow32 (probe col : ETensor) (mfun : List FV → List FV → FV) :
    Option (Int × FV) :=
  let rows := col.rows
  if rows = 0 then none
  else
    let csz := col.vals.length / rows
    if csz ≠ probe.vals.length then none
    else some (closestLoop mfun probe.vals col.vals csz (List.range rows)
      (-1, maxFloat32))

/-- Model of `ClosestRow64` (`metric` package): identical scan with the `float64`
initial minimum. -/
def ClosestRow64 (probe col : ETensor) (mfun : List FV → List FV → FV) :
    Option (Int × FV) :=
  let rows := col.rows
  if rows = 0 then none
  else
    let csz := col.vals.length / rows
    if csz ≠ probe.vals.length then none
    else some (closestLoop mfun probe.vals col.vals csz (List.range rows)
      (-1, maxFloat64))

/-! ## Slice aliasing model for `Clone`/`CopyFrom`

To state that `Clone` gives the view *its own* index memory
(`idxtable.go:208-219`: `make([]int, ...)` followed by `copy`), index slices
live in an explicit store of arrays and a view holds the address of its
slice (and the address of the shared table).  `Filter` and `Sort` write the
view's slice in place. -/

/-- Store of index arrays; an address is a position in the list. -/
abbrev Store := List (List Nat)

/-- A view in the store model: address of the shared table and address of
its index slice. -/
structure HView where
  tableRef : Nat
  idxsAddr : Nat
deriving DecidableEq, Repr

/-- Read a view's index slice. -/
def storeGet (s : Store) (a : Nat) : List Nat := nthD [] s a

/-- Model of `Clone` (`idxtable.go:208-212` via `CopyFrom`, `idxtable.go:215-219`):
allocate a fresh slice, copy the contents, share the table reference. -/
def hClone (s : Store) (v : HView) : Store × HView :=
  (s ++ [storeGet s v.idxsAddr], ⟨v.tableRef, s.length⟩)

/-- Model of `Filter` in the store model: rewrite the view's slice in place. -/
def hFilter (p : Nat → Bool) (s : Store) (v : HView) : Store :=
  setAt s v.idxsAddr (filterGo p (storeGet s v.idxsAddr))

/-- Model of `Sort` in the store model: rewrite the view's slice in place. -/
def hSort (less : Nat → Nat → Bool) (s : Store) (v : HView) : Store :=
  setAt s v.idxsAddr (sortGo less (storeGet s v.idxsAddr))

/-! ## State-passing readers

Go methods receive the view by pointer and could mutate it; `NewTable` and
`AggCol` contain no assignment to `ix.Table` or `ix.Idxs`, so their
state-passing translations return the receiver unchanged next to the
result. -/

/-- State-passing `NewTable`: result plus the receiver after the call. -/
def IdxTable.newTableM (ix : IdxTable) : Table × IdxTable := (ix.newTable, ix)

/-- State-passing `AggCol`: result plus the receiver after the call. -/
def IdxTable.aggColM (ix : IdxTable) (colIdx : Int) (ini : FV)
    (f : Nat → FV → FV → FV) : Option (List FV) × IdxTable :=
  (ix.aggCol colIdx ini f, ix)

/-- The fresh column `New(sc, rows)` builds for the schema entry of `c`
(same name, kind and cell size; zeroed non-null storage). -/
def freshCol (c : Column) (rows : Nat) : Column :=
  { name := c.name, kind := c.kind, csz := c.csz
    fvals := List.replicate (rows * c.csz) (FV.v 0)
    svals := List.replicate (rows * c.csz) ""
    nulls := List.replicate (rows * c.csz) false }

/-! ## Concrete example data used by the closed theorems and witnesses -/

/-- Position of the first occurrence of `x` (length if absent). -/
def posOf (x : Nat) : List Nat → Nat
  | [] => 0
  | y :: ys => if y = x then 0 else posOf x ys + 1

/-- Two-row numeric column with values `[2, 1]`. -/
def cexColA : Column :=
  ⟨"A", ColKind.numeric, 1, [FV.v 2, FV.v 1], ["", ""], [false, false]⟩

/-- Two-row numeric column with values `[1, 2]`. -/
def cexColB : Column :=
  ⟨"B", ColKind.numeric, 1, [FV.v 1, FV.v 2], ["", ""], [false, false]⟩

/-- Two-row table with numeric columns `A = [2, 1]`, `B = [1, 2]`. -/
def cexT : Table := ⟨[cexColA, cexColB], 2⟩

/-- Sort key for the stability counterexample: row 0 keys `2`, rows `1..6`
all key `1` (a six-way tie). -/
def cexKey (r : Nat) : Nat := if r = 0 then 2 else 1

/-- Comparator on physical rows induced by `cexKey` (ascending). -/
def cexLF : Table → Nat → Nat → Bool := fun _ r s => decide (cexKey r < cexKey s)

/-- Seven-row table carrying the `cexKey` data abstractly. -/
def cexT7 : Table := ⟨[], 7⟩

/-- Fresh view of the seven-row table: indexes `[0, 1, 2, 3, 4, 5, 6]`. -/
def cexIx7 : IdxTable := ⟨cexT7, [0, 1, 2, 3, 4, 5, 6]⟩

/-- Two-row table with one numeric column of cell size 2 (round-trip
witness). -/
def rtT : Table :=
  ⟨[⟨"x", ColKind.numeric, 2, [FV.v 1, FV.v 2, FV.v 3, FV.v 4],
    ["a", "b", "c", "d"], [false, true, false, false]⟩], 2⟩

/-- A filtered/duplicated view of `rtT` (materialization witness). -/
def rtIx : IdxTable := ⟨rtT, [1, 0, 1]⟩

/-- The aggregation example column: values `[1.0, NaN, 3.0, null]`
(the last element is null with stored value 0). -/
def aggCol4 : Column :=
  ⟨"v", ColKind.numeric, 1, [FV.v 1, FV.nan, FV.v 3, FV.v 0],
    ["", "", "", ""], [false, false, false, true]⟩

/-- Four-row table holding `aggCol4`. -/
def aggT4 : Table := ⟨[aggCol4], 4⟩

/-- Fresh view of `aggT4`. -/
def aggIx4 : IdxTable := ⟨aggT4, [0, 1, 2, 3]⟩

/-- Sum reducer: `fun(idx, val, agg) = val + agg`. -/
def sumRed : Nat → FV → FV → FV := fun _ v a => fvAdd v a

/-- Store with one index slice `[1, 0]` at address 0 (clone witness). -/
def s8 : Store := [[1, 0]]

/-- View at table reference 0, index slice address 0 (clone witness). -/
def v8 : HView := ⟨0, 0⟩

/-- Concrete keep-row-0 predicate (clone witness). -/
def p8 : Nat → Bool := fun r => decide (r = 0)

/-- Concrete ascending comparator on physical rows (clone witness). -/
def less8 : Nat → Nat → Bool := fun r s => decide (r < s)

/-- Probe of length 2 (shape-mismatch witness). -/
def probe9 : ETensor := ⟨1, [FV.v 0, FV.v 0]⟩

/-- Two-row column tensor of cell size 1 (shape-mismatch witness). -/
def col9 : ETensor := ⟨2, [FV.v 1, FV.v 2]⟩

/-- Probe of length 1 (shape-match witness). -/
def probe9m : ETensor := ⟨1, [FV.v 0]⟩

/-- Constant metric function (shape witness). -/
def m9 : List FV → List FV → FV := fun _ _ => FV.v 0

/-! ## Helper lemmas -/

@[simp] theorem nthD_nil (d : α) (i : Nat) : nthD d [] i = d := rfl

@[simp] theorem nthD_cons_zero (d x : α) (xs : List α) : nthD d (x :: xs) 0 = x := rfl

@[simp] theorem nthD_cons_succ (d x : α) (xs : List α) (n : Nat) :
    nthD d (x :: xs) (n + 1) = nthD d xs n := rfl

@[simp] theorem length_setAt (l : List α) (i : Nat) (v : α) :
    (setAt l i v).length = l.length := by
  induction l generalizing i with
  | nil => rfl
  | cons x xs ih => cases i <;> simp [setAt, ih]

theorem nthD_setAt_eq (d : α) (l : List α) (i : Nat) (v : α) (h : i < l.length) :
    nthD d (setAt l i v) i = v := by
  induction l generalizing i with
  | nil => simp at h
  | cons x xs ih =>
    cases i with
    | zero => rfl
    | succ n => simpa [setAt] using ih n (by simpa using h)

theorem nthD_setAt_ne (d : α) (l : List α) (i j : Nat) (v : α) (h : i ≠ j) :
    nthD d (setAt l i v) j = nthD d l j := by
  induction l generalizing i j with
  | nil => rfl
  | cons x xs ih =>
    cases i with
    | zero => cases j with
      | zero => exact absurd rfl h
      | succ m => rfl
    | succ n => cases j with
      | zero => rfl
      | succ m => simpa [setAt] using ih n m (by omega)

theorem setAt_setAt_same (l : List α) (i : Nat) (a b : α) :
    setAt (setAt l i a) i b = setAt l i b := by
  induction l generalizing i with
  | nil => rfl
  | cons x xs ih => cases i <;> simp [setAt, ih]

theorem setAt_nthD_self (d : α) (l : List α) (i : Nat) :
    setAt l i (nthD d l i) = l := by
  induction l generalizing i with
  | nil => rfl
  | cons x xs ih => cases i <;> simp [setAt, ih]

theorem nthD_ge (d : α) (l : List α) (i : Nat) (h : l.length ≤ i) : nthD d l i = d := by
  induction l generalizing i with
  | nil => rfl
  | cons x xs ih =>
    cases i with
    | zero => simp at h
    | succ n => simpa using ih n (by simpa using h)

/-- Two lists of the same length with the same `nthD` reads are equal. -/
theorem nthD_ext (d : α) {l₁ l₂ : List α} (hlen : l₁.length = l₂.length)
    (h : ∀ k, k < l₁.length → nthD d l₁ k = nthD d l₂ k) : l₁ = l₂ := by
  induction l₁ generalizing l₂ with
  | nil => cases l₂ with
    | nil => rfl
    | cons y ys => simp at hlen
  | cons x xs ih =>
    cases l₂ with
    | nil => simp at hlen
    | cons y ys =>
      have h0 := h 0 (by simp)
      simp at h0
      have : xs = ys := by
        refine ih (by simpa using hlen) ?_
        intro k hk
        simpa using h (k + 1) (by simpa using Nat.succ_lt_succ hk)
      simp [h0, this]

theorem nthD_append_lt (d : α) (l₁ l₂ : List α) (i : Nat) (h : i < l₁.length) :
    nthD d (l₁ ++ l₂) i = nthD d l₁ i := by
  induction l₁ generalizing i with
  | nil => simp at h
  | cons x xs ih =>
    cases i with
    | zero => rfl
    | succ n => simpa using ih n (by simpa using h)

theorem nthD_append_self (d : α) (l₁ l₂ : List α) (y : α) :
    nthD d (l₁ ++ y :: l₂) l₁.length = y := by
  induction l₁ with
  | nil => rfl
  | cons x xs ih => simpa using ih

theorem nthD_range (i n : Nat) (h : i < n) : nthD 0 (List.range n) i = i := by
  induction n generalizing i with
  | zero => omega
  | succ m ih =>
    rw [List.range_succ]
    rcases Nat.lt_or_ge i m with hi | hi
    · rw [nthD_append_lt 0 _ _ _ (by simpa using hi)]
      exact ih i hi
    · have : i = m := by omega
      subst this
      have := nthD_append_self 0 (List.range i) ([] : List Nat) i
      simpa [List.length_range] using this

theorem nthD_replicate (d v : α) (n i : Nat) (h : i < n) :
    nthD d (List.replicate n v) i = v := by
  induction n generalizing i with
  | zero => omega
  | succ m ih =>
    cases i with
    | zero => rfl
    | succ k => simpa [List.replicate_succ] using ih k (by omega)


@[simp] theorem lswap_self (l : List Nat) (i : Nat) : lswap l i i = l := by
  unfold lswap
  split
  · rw [setAt_setAt_same, setAt_nthD_self]
  · rfl

@[simp] theorem length_lswap (l : List Nat) (i j : Nat) :
    (lswap l i j).length = l.length := by
  unfold lswap
  split <;> simp


theorem filterLoop_append (p : Nat → Bool) (l₂ l₁ : List Nat) :
    filterLoop p l₁.length (l₁ ++ l₂) = l₁.filter p ++ l₂ := by
  induction l₁ using List.reverseRecOn generalizing l₂ with
  | nil => rfl
  | append_singleton xs x ih =>
    have hlen : (xs ++ [x]).length = xs.length + 1 := by simp
    have hassoc : (xs ++ [x]) ++ l₂ = xs ++ x :: l₂ := by simp
    rw [hlen, hassoc]
    show filterLoop p xs.length (filterStep p (xs ++ x :: l₂) xs.length) = _
    have hread : nthD 0 (xs ++ x :: l₂) xs.length = x := nthD_append_self 0 xs l₂ x
    have hin : xs.length < (xs ++ x :: l₂).length := by simp
    by_cases hp : p x
    · have hstep : filterStep p (xs ++ x :: l₂) xs.length = xs ++ x :: l₂ := by
        simp [filterStep, hin, hread, hp]
      rw [hstep, ih (x :: l₂)]
      simp [List.filter_append, hp]
    · have htake : (xs ++ x :: l₂).take xs.length = xs := by
        simp
      have hdrop : (xs ++ x :: l₂).drop (xs.length + 1) = l₂ := by
        have : (xs ++ [x]) ++ l₂ = xs ++ x :: l₂ := by simp
        rw [← this]
        exact List.drop_left' (by simp)
      have hstep : filterStep p (xs ++ x :: l₂) xs.length = xs ++ l₂ := by
        simp [filterStep, hin, hread, hp, htake, hdrop]
      rw [hstep, ih l₂]
      simp [List.filter_append, hp]

/-- The body of `Filter` computes the stable (order-preserving) filter of the index
sequence. -/
theorem filterGo_eq_filter (p : Nat → Bool) (l : List Nat) :
    filterGo p l = l.filter p := by
  have := filterLoop_append p [] l
  simpa [filterGo] using this


@[simp] theorem length_copyRangeN (d : α) (src : List α) (sOff : Nat) (dst : List α)
    (dOff n : Nat) : (copyRangeN d src sOff dst dOff n).length = dst.length := by
  induction n with
  | zero => rfl
  | succ m ih => simp [copyRangeN, ih]

theorem nthD_copyRangeN_in (d : α) (src : List α) (sOff : Nat) (dst : List α)
    (dOff n k : Nat) (hk : k < n) (hin : dOff + k < dst.length) :
    nthD d (copyRangeN d src sOff dst dOff n) (dOff + k) = nthD d src (sOff + k) := by
  induction n with
  | zero => omega
  | succ m ih =>
    rcases Nat.lt_or_ge k m with hkm | hkm
    · rw [copyRangeN, nthD_setAt_ne d _ _ _ _ (by omega)]
      exact ih hkm
    · have hkem : k = m := by omega
      subst hkem
      rw [copyRangeN, nthD_setAt_eq d _ _ _ (by simpa using hin)]

theorem nthD_copyRangeN_low (d : α) (src : List α) (sOff : Nat) (dst : List α)
    (dOff n k : Nat) (hk : k < dOff) :
    nthD d (copyRangeN d src sOff dst dOff n) k = nthD d dst k := by
  induction n with
  | zero => rfl
  | succ m ih => rw [copyRangeN, nthD_setAt_ne d _ _ _ _ (by omega), ih]

theorem nthD_copyRangeN_high (d : α) (src : List α) (sOff : Nat) (dst : List α)
    (dOff n k : Nat) (hk : dOff + n ≤ k) :
    nthD d (copyRangeN d src sOff dst dOff n) k = nthD d dst k := by
  induction n with
  | zero => rfl
  | succ m ih => rw [copyRangeN, nthD_setAt_ne d _ _ _ _ (by omega), ih (by omega)]


/-- The loop `copyColLoop` acts componentwise as `copyListLoop` and keeps the
metadata. -/
theorem copyColLoop_eq (scl : Column) (csz : Nat) (idxs : List Nat) (i : Nat)
    (tcl : Column) :
    copyColLoop scl csz idxs i tcl =
      { tcl with
        fvals := copyListLoop FV.nan scl.fvals csz idxs i tcl.fvals
        svals := copyListLoop "" scl.svals csz idxs i tcl.svals
        nulls := copyListLoop false scl.nulls csz idxs i tcl.nulls } := by
  induction idxs generalizing i tcl with
  | nil => simp [copyColLoop, copyListLoop]
  | cons srw rest ih => simp [copyColLoop, copyListLoop, ih, copyCellsFrom]

@[simp] theorem length_copyListLoop (d : α) (src : List α) (csz : Nat)
    (idxs : List Nat) (i : Nat) (dst : List α) :
    (copyListLoop d src csz idxs i dst).length = dst.length := by
  induction idxs generalizing i dst with
  | nil => rfl
  | cons srw rest ih => simp [copyListLoop, ih]

theorem nthD_copyListLoop_low (d : α) (src : List α) (csz : Nat) (idxs : List Nat)
    (i : Nat) (dst : List α) (k : Nat) (hk : k < i * csz) :
    nthD d (copyListLoop d src csz idxs i dst) k = nthD d dst k := by
  induction idxs generalizing i dst with
  | nil => rfl
  | cons srw rest ih =>
    have hstep : i * csz ≤ (i + 1) * csz := Nat.mul_le_mul_right csz (Nat.le_succ i)
    rw [copyListLoop, ih (i + 1) _ (by omega)]
    exact nthD_copyRangeN_low d _ _ _ _ _ _ hk

/-- Main pointwise lemma: after the copy loop starting at logical position
`i`, flat position `(i+q)*csz + r` of the destination holds flat element
`idxs[q]*csz + r` of the source. -/
theorem nthD_copyListLoop_main (d : α) (src : List α) (csz : Nat) (idxs : List Nat)
    (i : Nat) (dst : List α) (q r : Nat) (hq : q < idxs.length) (hr : r < csz)
    (hlen : (i + idxs.length) * csz ≤ dst.length) :
    nthD d (copyListLoop d src csz idxs i dst) ((i + q) * csz + r) =
      nthD d src (nthD 0 idxs q * csz + r) := by
  induction idxs generalizing i dst q with
  | nil => exact absurd hq (by simp)
  | cons srw rest ih =>
    simp only [List.length_cons] at hlen
    have hexp : (i + (rest.length + 1)) * csz = i * csz + rest.length * csz + csz := by
      ring
    rw [hexp] at hlen
    cases q with
    | zero =>
      rw [copyListLoop]
      have hsucc : (i + 1) * csz = i * csz + csz := by ring
      have hpos : i * csz + r < dst.length := by omega
      have hlow :
          nthD d (copyListLoop d src csz rest (i + 1)
              (copyRangeN d src (srw * csz) dst (i * csz) csz)) (i * csz + r) =
          nthD d (copyRangeN d src (srw * csz) dst (i * csz) csz) (i * csz + r) :=
        nthD_copyListLoop_low d src csz rest (i + 1) _ _ (by omega)
      have hin :
          nthD d (copyRangeN d src (srw * csz) dst (i * csz) csz) (i * csz + r) =
          nthD d src (srw * csz + r) :=
        nthD_copyRangeN_in d src (srw * csz) dst (i * csz) csz r hr (by omega)
      simp [hlow, hin]
    | succ q' =>
      rw [copyListLoop]
      have hshift : i + (q' + 1) = (i + 1) + q' := by omega
      rw [hshift]
      have hlen' : ((i + 1) + rest.length) * csz ≤
          (copyRangeN d src (srw * csz) dst (i * csz) csz).length := by
        have : ((i + 1) + rest.length) * csz = i * csz + rest.length * csz + csz := by
          ring
        rw [length_copyRangeN, this]
        omega
      rw [ih (i + 1) _ q' (by simpa using hq) hlen']
      rfl

/-! ### Behaviour of the sort under the constant-`false` comparator -/

theorem dLess_false (l : List Nat) (i j : Nat) : dLess (fun _ _ => false) l i j = false :=
  rfl

theorem insSortInner_false (a j : Nat) (l : List Nat) :
    insSortInner (fun _ _ => false) a j l = l := by
  cases j <;> simp [insSortInner, dLess_false]

theorem insSortOuter_false (a i k : Nat) (l : List Nat) :
    insSortOuter (fun _ _ => false) a i k l = l := by
  induction k generalizing i l with
  | zero => rfl
  | succ m ih => simp [insSortOuter, insSortInner_false, ih]

theorem shellPass_false (i k : Nat) (l : List Nat) :
    shellPass (fun _ _ => false) i k l = l := by
  induction k generalizing i l with
  | zero => rfl
  | succ m ih => simp [shellPass, dLess_false, ih]

theorem medianOfThree_false (l : List Nat) (m1 m0 m2 : Nat) :
    medianOfThree (fun _ _ => false) l m1 m0 m2 = l := by
  simp [medianOfThree, dLess_false]

theorem dpScanA_false (l : List Nat) (pivot a k : Nat) :
    dpScanA (fun _ _ => false) l pivot a k = a := by
  cases k <;> simp [dpScanA, dLess_false]

theorem dpScanB_false (l : List Nat) (pivot b k : Nat) :
    dpScanB (fun _ _ => false) l pivot b k = b + k := by
  induction k generalizing b with
  | zero => rfl
  | succ m ih => simp [dpScanB, dLess_false, ih]; omega

theorem dpScanC_false (l : List Nat) (pivot c k : Nat) :
    dpScanC (fun _ _ => false) l pivot c k = c := by
  cases k <;> simp [dpScanC, dLess_false]

theorem dpScanB2_false (l : List Nat) (pivot b k : Nat) :
    dpScanB2 (fun _ _ => false) l pivot b k = b - k := by
  induction k generalizing b with
  | zero => rfl
  | succ m ih => simp [dpScanB2, dLess_false, ih]; omega

theorem dpScanA2_false (l : List Nat) (pivot a k : Nat) :
    dpScanA2 (fun _ _ => false) l pivot a k = a := by
  cases k <;> simp [dpScanA2, dLess_false]

theorem dpMain_false (pivot k : Nat) (l : List Nat) (b c : Nat) (h : b ≤ c) :
    dpMain (fun _ _ => false) pivot (k + 1) l b c = (l, c, c) := by
  have hb : b + (c - b) = c := by omega
  simp [dpMain, dpScanB_false, dpScanC_false, hb]

theorem dpProtectLoop_false (pivot k : Nat) (l : List Nat) (a b : Nat) (h : a ≤ b) :
    dpProtectLoop (fun _ _ => false) pivot (k + 1) l a b = (l, a) := by
  have hb : b - (b - a) = a := by omega
  simp [dpProtectLoop, dpScanB2_false, dpScanA2_false, hb]

theorem doPivotGo_false (l : List Nat) (lo hi : Nat) (h : lo + 2 ≤ hi) :
    doPivotGo (fun _ _ => false) l lo hi = (l, lo, hi - 1) := by
  obtain ⟨k, hk⟩ : ∃ k, hi = k + 1 := ⟨hi - 1, by omega⟩
  have hmain : dpMain (fun _ _ => false) lo hi l (lo + 1) (hi - 1) = (l, hi - 1, hi - 1) := by
    rw [hk]
    exact dpMain_false lo k l (lo + 1) (k + 1 - 1) (by omega)
  have hprot : dpProtectLoop (fun _ _ => false) lo hi l (lo + 1) (hi - 1) = (l, lo + 1) := by
    rw [hk]
    exact dpProtectLoop_false lo k l (lo + 1) (k + 1 - 1) (by omega)
  have hc5 : hi - (hi - 1) = 1 := by omega
  simp [doPivotGo, medianOfThree_false, dpScanA_false, hmain, hprot, hc5]

theorem quickSortGo_false (fuel : Nat) (l : List Nat) (a b md : Nat)
    (h : b - a > 12 → md ≠ 0) :
    quickSortGo (fun _ _ => false) fuel l a b md = l := by
  induction fuel generalizing l a b md with
  | zero => rfl
  | succ fuel ih =>
    rw [quickSortGo]
    by_cases h12 : b - a > 12
    · have hmd : ¬ md = 0 := h h12
      have hpiv : doPivotGo (fun _ _ => false) l a b = (l, a, b - 1) :=
        doPivotGo_false l a b (by omega)
      have h1 : a - a < b - (b - 1) := by omega
      simp only [if_pos h12, if_neg hmd, hpiv, h1, if_pos]
      rw [ih l a a (md - 1) (by omega), ih l (b - 1) b (md - 1) (by omega)]
    · simp only [if_neg h12]
      by_cases h1 : b - a > 1
      · simp [h1, insertionSortGo, shellPass_false, insSortOuter_false]
      · simp [h1]

theorem depthBits_ne_zero (n : Nat) (h : 0 < n) : depthBits n ≠ 0 := by
  cases n with
  | zero => omega
  | succ m => simp [depthBits, depthBitsAux]

/-- Running `sort.Sort` with a comparator that always answers "not less" performs
only self-swaps and leaves the data unchanged. -/
theorem sortGo_false (l : List Nat) : sortGo (fun _ _ => false) l = l := by
  refine quickSortGo_false (l.length + 1) l 0 l.length (maxDepthGo l.length) ?_
  intro h12
  have hpos : 0 < l.length := by omega
  have hne := depthBits_ne_zero l.length hpos
  simp [maxDepthGo]
  omega

/-! ### More list-read helpers -/

theorem nthD_map (d : β) (d' : α) (f : α → β) (l : List α) (k : Nat)
    (h : k < l.length) : nthD d (l.map f) k = f (nthD d' l k) := by
  induction l generalizing k with
  | nil => simp at h
  | cons x xs ih =>
    cases k with
    | zero => rfl
    | succ n => simpa using ih n (by simpa using h)

theorem nthD_mem (d : α) (l : List α) (k : Nat) (h : k < l.length) :
    nthD d l k ∈ l := by
  induction l generalizing k with
  | nil => simp at h
  | cons x xs ih =>
    cases k with
    | zero => simp
    | succ n => exact List.mem_cons_of_mem x (ih n (by simpa using h))

/-! ### Materialization helper lemmas -/

theorem length_copyCols (srcCols : List Column) (idxs : List Nat)
    (tcols : List Column) (ci : Nat) :
    (copyCols srcCols idxs tcols ci).length = tcols.length := by
  induction tcols generalizing ci with
  | nil => rfl
  | cons tcl rest ih => simp [copyCols, ih]

theorem nthD_copyCols (srcCols : List Column) (idxs : List Nat)
    (tcols : List Column) (ci k : Nat) (h : k < tcols.length) :
    nthD emptyCol (copyCols srcCols idxs tcols ci) k =
      copyColLoop (nthD emptyCol srcCols (ci + k)) ((nthD emptyCol tcols k).csz)
        idxs 0 (nthD emptyCol tcols k) := by
  induction tcols generalizing ci k with
  | nil => simp at h
  | cons tcl rest ih =>
    cases k with
    | zero => simp [copyCols]
    | succ n =>
      have : ci + (n + 1) = (ci + 1) + n := by omega
      rw [this]
      simpa [copyCols] using ih (ci + 1) n (by simpa using h)

/-- The table `New(Schema(t), rows)` has exactly the fresh columns of `t`. -/
theorem new_schema_cols (t : Table) (rows : Nat) :
    (Table.new t.schema rows).cols = t.cols.map (fun c => freshCol c rows) := by
  simp [Table.new, Table.schema, List.map_map, freshCol, Function.comp]

/-- The copy loop keeps the column's metadata. -/
theorem copyColLoop_meta (scl : Column) (csz : Nat) (idxs : List Nat) (i : Nat)
    (tcl : Column) :
    (copyColLoop scl csz idxs i tcl).name = tcl.name ∧
    (copyColLoop scl csz idxs i tcl).kind = tcl.kind ∧
    (copyColLoop scl csz idxs i tcl).csz = tcl.csz := by
  rw [copyColLoop_eq]
  exact ⟨rfl, rfl, rfl⟩

/-- The column list of a non-empty materialization: column `ci` is the copy
loop applied to the fresh column of source column `ci`. -/
theorem newTable_col (ix : IdxTable) (hne : ix.idxs ≠ []) (ci : Nat)
    (hci : ci < ix.table.cols.length) :
    nthD emptyCol ix.newTable.cols ci =
      copyColLoop (nthD emptyCol ix.table.cols ci)
        ((nthD emptyCol ix.table.cols ci).csz) ix.idxs 0
        (freshCol (nthD emptyCol ix.table.cols ci) ix.idxs.length) := by
  have hlen0 : ix.idxs.length ≠ 0 := by simpa using hne
  unfold IdxTable.newTable
  simp only [if_neg hlen0]
  have hcols : (Table.new ix.table.schema ix.idxs.length).cols =
      ix.table.cols.map (fun c => freshCol c ix.idxs.length) := new_schema_cols _ _
  rw [hcols]
  rw [nthD_copyCols _ _ _ 0 ci (by simpa using hci)]
  rw [nthD_map emptyCol emptyCol _ _ ci hci]
  simp [freshCol]

/-- Row count of the materialization. -/
theorem newTable_rows (ix : IdxTable) : ix.newTable.rows = ix.idxs.length := by
  unfold IdxTable.newTable
  by_cases h : ix.idxs.length = 0 <;> simp [h, Table.new]

/-- Number of columns of the materialization. -/
theorem newTable_numCols (ix : IdxTable) :
    ix.newTable.cols.length = ix.table.cols.length := by
  unfold IdxTable.newTable
  by_cases h : ix.idxs.length = 0 <;>
    simp [h, length_copyCols, new_schema_cols]

/-- Schema preservation of the materialization. -/
theorem newTable_schema (ix : IdxTable) : ix.newTable.schema = ix.table.schema := by
  unfold Table.schema
  refine nthD_ext ("", ColKind.numeric, 0) ?_ ?_
  · simp [newTable_numCols]
  · intro k hk
    have hk' : k < ix.newTable.cols.length := by simpa using hk
    have hk'' : k < ix.table.cols.length := by
      rw [← newTable_numCols ix]
      exact hk'
    rw [nthD_map _ emptyCol _ _ k hk', nthD_map _ emptyCol _ _ k hk'']
    by_cases hne : ix.idxs = []
    · unfold IdxTable.newTable
      simp only [hne]
      rw [if_pos (by simp [hne])]
      rw [new_schema_cols]
      rw [nthD_map emptyCol emptyCol _ _ k hk'']
      simp [freshCol]
    · rw [newTable_col ix hne k hk'']
      have hmeta := copyColLoop_meta (nthD emptyCol ix.table.cols k)
        ((nthD emptyCol ix.table.cols k).csz) ix.idxs 0
        (freshCol (nthD emptyCol ix.table.cols k) ix.idxs.length)
      rw [hmeta.1, hmeta.2.1, hmeta.2.2]
      simp [freshCol]

/-! ### Aggregation helper lemmas -/

theorem length_aggRowCells (f : Nat → FV → FV → FV) (cl : Column) (si j : Nat)
    (ag : List FV) : (aggRowCells f cl si j ag).length = ag.length := by
  induction ag generalizing j with
  | nil => rfl
  | cons a as ih => simp [aggRowCells, ih]

theorem nthD_aggRowCells (f : Nat → FV → FV → FV) (cl : Column) (si j k : Nat)
    (ag : List FV) (h : k < ag.length) (d : FV) :
    nthD d (aggRowCells f cl si j ag) k = aggStep f cl (si + j + k) (nthD d ag k) := by
  induction ag generalizing j k with
  | nil => simp at h
  | cons a as ih =>
    cases k with
    | zero => simp [aggRowCells]
    | succ n =>
      have : si + j + (n + 1) = si + (j + 1) + n := by omega
      rw [this]
      simpa [aggRowCells] using ih (j + 1) n (by simpa using h)

theorem length_aggLoopN (f : Nat → FV → FV → FV) (cl : Column) (csz : Nat)
    (idxs : List Nat) (ag : List FV) :
    (aggLoopN f cl csz idxs ag).length = ag.length := by
  induction idxs generalizing ag with
  | nil => rfl
  | cons srw rest ih => simp [aggLoopN, ih, length_aggRowCells]

theorem nthD_aggLoopN (f : Nat → FV → FV → FV) (cl : Column) (csz : Nat)
    (idxs : List Nat) (ag : List FV) (k : Nat) (h : k < ag.length) (d : FV) :
    nthD d (aggLoopN f cl csz idxs ag) k = aggSlot f cl csz k idxs (nthD d ag k) := by
  induction idxs generalizing ag with
  | nil => rfl
  | cons srw rest ih =>
    rw [aggLoopN]
    rw [ih _ (by simpa [length_aggRowCells] using h)]
    rw [nthD_aggRowCells f cl (srw * csz) 0 k ag h d]
    simp [aggSlot, List.foldl_cons]

theorem aggLoop1_single (f : Nat → FV → FV → FV) (cl : Column) (idxs : List Nat)
    (a : FV) :
    aggLoop1 f cl idxs [a] = [idxs.foldl (fun acc srw => aggStep f cl srw acc) a] := by
  induction idxs generalizing a with
  | nil => rfl
  | cons srw rest ih =>
    have hfold : (srw :: rest).foldl (fun acc s => aggStep f cl s acc) a =
        rest.foldl (fun acc s => aggStep f cl s acc) (aggStep f cl srw a) := rfl
    rw [aggLoop1, hfold]
    by_cases hc : ¬ IsNull1D cl srw ∧ ¬ fvIsNaN (FloatVal1D cl srw)
    · rw [if_pos hc]
      have hset : setAt [a] 0 (f srw (FloatVal1D cl srw) (nthD FV.nan [a] 0)) =
          [aggStep f cl srw a] := by
        unfold aggStep
        rw [if_pos hc]
        rfl
      rw [hset, ih]
    · rw [if_neg hc]
      have hstep : aggStep f cl srw a = a := by
        unfold aggStep
        rw [if_neg hc]
      rw [hstep, ih]

/-! ## The claims -/

/-- C1: the claim says the comparator built by `SortCols` cascades to the
next key only when the current key's two values are exactly equal.  The code
violates this: on `cexT` (numeric `A = [2, 1]`, `B = [1, 2]`), sorting by
`[A, B]` ascending, row 0's `A` value `2` is strictly greater than row 1's
`1` — not equal — so the comparator should answer `false`; instead the
ascending numeric branch repeats the `<` test where the source comment says
"if equal, fallthrough", cascades to column `B`, and answers `true`.  Both
orientations answer `true`, so the built comparator is not even an order. -/
theorem C1_sortcols_cascade_bug :
    FloatVal1D cexColA 0 = FV.v 2 ∧ FloatVal1D cexColA 1 = FV.v 1 ∧
    fvLt (FloatVal1D cexColA 0) (FloatVal1D cexColA 1) = false ∧
    FloatVal1D cexColA 0 ≠ FloatVal1D cexColA 1 ∧
    sortColsLess cexT true 0 1 [0, 1] = true ∧
    sortColsLess cexT true 1 0 [0, 1] = true := by
  decide

/-- C2, counterexample to "Sort is stable: ties preserve prior relative
order": under the comparator induced by keys `[2, 1, 1, 1, 1, 1, 1]`
(ascending), physical rows 1 and 6 tie, row 1 precedes row 6 in the fresh
view, yet after `Sort` row 6 precedes row 1 (the gap-6 shell pass swaps
positions 6 and 0 across the tied block). -/
theorem C2_stability_counterexample :
    cexLF cexT7 1 6 = false ∧ cexLF cexT7 6 1 = false ∧
    posOf 1 cexIx7.idxs < posOf 6 cexIx7.idxs ∧
    (cexIx7.sortM cexLF).idxs = [6, 1, 2, 3, 4, 5, 0] ∧
    posOf 6 (cexIx7.sortM cexLF).idxs < posOf 1 (cexIx7.sortM cexLF).idxs := by
  decide

/-- C2 (amended): `Sort` delegates to Go's `sort.Sort`, which is not stable
in general; the particular consequence holds as stated — sorting any view
with a constant comparator that always returns `false` ("not less") leaves
the `Idxs` sequence unchanged. -/
theorem C2_constfalse_identity (ix : IdxTable) :
    (ix.sortM (fun _ _ _ => false)).idxs = ix.idxs := by
  show sortGo ((fun (_ : Table) (_ _ : Nat) => false) ix.table) ix.idxs = ix.idxs
  exact sortGo_false ix.idxs

/-- C3: for every view and predicate, `Filter` replaces `Idxs` with exactly
the order-preserving subsequence of entries whose predicate is true, and
applying `Filter` twice with the same predicate equals applying it once. -/
theorem C3_filter_stable_idempotent (ix : IdxTable) (p : Table → Nat → Bool) :
    (ix.filterM p).idxs = ix.idxs.filter (p ix.table) ∧
    (ix.filterM p).filterM p = ix.filterM p := by
  constructor
  · show filterGo (p ix.table) ix.idxs = ix.idxs.filter (p ix.table)
    exact filterGo_eq_filter _ _
  · show ({ ix with idxs := filterGo (p ix.table) ix.idxs } : IdxTable).filterM p = _
    unfold IdxTable.filterM
    simp only [filterGo_eq_filter, List.filter_filter]
    have hpp : (fun a => p ix.table a && p ix.table a) = p ix.table := by
      funext a
      cases p ix.table a <;> simp
    rw [hpp]

/-- C6: calling `AggCol` with a column index outside `0 .. len(Cols)-1`
fails with the bounds check of `ix.Table.Cols[colIdx]` (modelled `none`)
rather than producing a result. -/
theorem C6_aggcol_out_of_range (ix : IdxTable) (colIdx : Int) (ini : FV)
    (f : Nat → FV → FV → FV)
    (h : colIdx < 0 ∨ (ix.table.cols.length : Int) ≤ colIdx) :
    ix.aggCol colIdx ini f = none := by
  have hcond : ¬ (0 ≤ colIdx ∧ colIdx < (ix.table.cols.length : Int)) := by omega
  unfold IdxTable.aggCol colAt
  rw [if_neg hcond]

/-- Witness for C6 at the concrete view `aggIx4` (one column) and column
index 5. -/
theorem C6_aggcol_out_of_range_witness :
    aggIx4.aggCol 5 (FV.v 0) sumRed = none :=
  C6_aggcol_out_of_range aggIx4 5 (FV.v 0) sumRed (by decide)

/-- C10: `NewTable` and `AggCol` are read-only with respect to the view: in
the state-passing translation of the Go methods (whose bodies contain no
assignment to the receiver's fields) the receiver after either call has the
same `Idxs` sequence and the same `Table` reference as before. -/
theorem C10_readers_preserve_view (ix : IdxTable) (colIdx : Int) (ini : FV)
    (f : Nat → FV → FV → FV) :
    (ix.newTableM.2.idxs = ix.idxs ∧ ix.newTableM.2.table = ix.table) ∧
    ((ix.aggColM colIdx ini f).2.idxs = ix.idxs ∧
      (ix.aggColM colIdx ini f).2.table = ix.table) :=
  ⟨⟨rfl, rfl⟩, ⟨rfl, rfl⟩⟩

/-- C5: for a view over an existing column, `AggCol` returns the result the
specification describes — a sequence of `csz` slots, each initialized to
`ini` and updated in index order by the reducer exactly at the elements that
are neither null nor NaN — and that result has length `csz`. -/
theorem C5_aggcol_spec (ix : IdxTable) (colIdx : Int) (ini : FV)
    (f : Nat → FV → FV → FV) (cl : Column)
    (hcl : colAt ix.table colIdx = some cl) :
    ix.aggCol colIdx ini f = some (aggColSpec f cl cl.csz ix.idxs ini) ∧
    (aggColSpec f cl cl.csz ix.idxs ini).length = cl.csz := by
  constructor
  · unfold IdxTable.aggCol
    rw [hcl]
    by_cases h1 : cl.csz = 1
    · simp only [h1, if_pos]
      have hrep : List.replicate 1 ini = [ini] := rfl
      rw [hrep, aggLoop1_single]
      have hspec : aggColSpec f cl 1 ix.idxs ini = [aggSlot f cl 1 0 ix.idxs ini] := by
        simp [aggColSpec, List.range_succ]
      rw [hspec]
      have harg : (fun acc srw => aggStep f cl (srw * 1 + 0) acc) =
          (fun acc srw => aggStep f cl srw acc) := by
        funext acc srw
        simp
      simp only [aggSlot, harg]
    · simp only [if_neg h1]
      congr 1
      refine nthD_ext FV.nan ?_ ?_
      · simp [length_aggLoopN, aggColSpec]
      · intro k hk
        have hk' : k < cl.csz := by
          simpa [length_aggLoopN] using hk
        rw [nthD_aggLoopN f cl cl.csz ix.idxs _ k (by simpa using hk')]
        rw [nthD_replicate FV.nan ini cl.csz k hk']
        unfold aggColSpec
        rw [nthD_map FV.nan 0 _ _ k (by simpa using hk')]
        rw [nthD_range k cl.csz hk']
  · simp [aggColSpec]

/-- Witness for C5: the spec's own example — column values
`[1.0, NaN, 3.0, null]`, initial `0`, sum reducer — yields `[4.0]`. -/
theorem C5_aggcol_spec_witness :
    colAt aggT4 0 = some aggCol4 ∧
    aggIx4.aggCol 0 (FV.v 0) sumRed =
      some (aggColSpec sumRed aggCol4 aggCol4.csz aggIx4.idxs (FV.v 0)) ∧
    aggColSpec sumRed aggCol4 aggCol4.csz aggIx4.idxs (FV.v 0) = [FV.v 4] :=
  ⟨by decide, (C5_aggcol_spec aggIx4 0 (FV.v 0) sumRed aggCol4 (by decide)).1, by decide⟩

/-- Copying every cell of `src` in sequential order onto a fresh storage of
the same extent reproduces `src`. -/
theorem copyListLoop_range_id (d x : α) (src : List α) (csz rows : Nat)
    (hsrc : src.length = rows * csz) :
    copyListLoop d src csz (List.range rows) 0 (List.replicate (rows * csz) x) = src := by
  refine nthD_ext d ?_ ?_
  · simp [hsrc]
  · intro fl hfl
    have hfl' : fl < rows * csz := by simpa using hfl
    have hcsz : 0 < csz := by
      rcases Nat.eq_zero_or_pos csz with h0 | h
      · rw [h0] at hfl'
        simp at hfl'
      · exact h
    have hq : fl / csz < rows := by
      rw [Nat.div_lt_iff_lt_mul hcsz]
      omega
    have hr : fl % csz < csz := Nat.mod_lt fl hcsz
    have hfleq : (0 + fl / csz) * csz + fl % csz = fl := by
      have := Nat.div_add_mod fl csz
      have hz : (0 + fl / csz) * csz = csz * (fl / csz) := by ring
      omega
    rw [← hfleq]
    rw [nthD_copyListLoop_main d src csz (List.range rows) 0 _ (fl / csz) (fl % csz)
      (by simpa using hq) hr (by simp)]
    rw [nthD_range (fl / csz) rows hq]
    simp only [Nat.zero_add]

/-- Round-trip of one column: the copy loop over sequential indexes onto the
fresh column reproduces the source column. -/
theorem roundtrip_col (t : Table) (hwf : t.wf) (ci : Nat) (hci : ci < t.cols.length) :
    copyColLoop (nthD emptyCol t.cols ci) ((nthD emptyCol t.cols ci).csz)
      (List.range t.rows) 0
      (freshCol (nthD emptyCol t.cols ci) (List.range t.rows).length) =
    nthD emptyCol t.cols ci := by
  have hcmem : nthD emptyCol t.cols ci ∈ t.cols := nthD_mem emptyCol t.cols ci hci
  obtain ⟨hf, hs, hn⟩ := hwf _ hcmem
  rw [copyColLoop_eq]
  have hrows : (List.range t.rows).length = t.rows := by simp
  ext : 1
  · rfl
  · rfl
  · rfl
  · show copyListLoop FV.nan (nthD emptyCol t.cols ci).fvals _ _ 0 _ = _
    rw [show (freshCol (nthD emptyCol t.cols ci) (List.range t.rows).length).fvals =
        List.replicate (t.rows * (nthD emptyCol t.cols ci).csz) (FV.v 0) by
      simp [freshCol]]
    exact copyListLoop_range_id FV.nan (FV.v 0) _ _ t.rows hf
  · show copyListLoop "" (nthD emptyCol t.cols ci).svals _ _ 0 _ = _
    rw [show (freshCol (nthD emptyCol t.cols ci) (List.range t.rows).length).svals =
        List.replicate (t.rows * (nthD emptyCol t.cols ci).csz) "" by
      simp [freshCol]]
    exact copyListLoop_range_id "" "" _ _ t.rows hs
  · show copyListLoop false (nthD emptyCol t.cols ci).nulls _ _ 0 _ = _
    rw [show (freshCol (nthD emptyCol t.cols ci) (List.range t.rows).length).nulls =
        List.replicate (t.rows * (nthD emptyCol t.cols ci).csz) false by
      simp [freshCol]]
    exact copyListLoop_range_id false false _ _ t.rows hn

/-- C4: round-trip identity — building the sequential view of a well-formed
non-empty table and materializing it reproduces the table, cell for cell
(here: as an equality of tables). -/
theorem C4_roundtrip_identity (t : Table) (hwf : t.wf) (hne : 0 < t.rows) :
    (newIdxTable t).newTable = t := by
  have hne' : (newIdxTable t).idxs ≠ [] := by
    show List.range t.rows ≠ []
    simp [List.range_eq_nil]
    omega
  ext : 1
  · refine nthD_ext emptyCol ?_ ?_
    · rw [newTable_numCols]
      rfl
    · intro ci hci
      have hci' : ci < t.cols.length := by
        rw [newTable_numCols] at hci
        exact hci
      rw [newTable_col _ hne' ci hci']
      exact roundtrip_col t hwf ci hci'
  · rw [newTable_rows]
    show (List.range t.rows).length = t.rows
    simp

/-- Witness for C4 on the concrete two-row, cell-size-2 table `rtT`. -/
theorem C4_roundtrip_identity_witness :
    rtT.wf ∧ 0 < rtT.rows ∧ (newIdxTable rtT).newTable = rtT :=
  ⟨by decide, by decide, C4_roundtrip_identity rtT (by decide) (by decide)⟩

/-- Reading a materialized cell element: logical position `i`, cell offset
`r`, through the copy loop over arbitrary indexes onto fresh storage. -/
theorem newtable_read (d x : α) (src : List α) (csz : Nat) (idxs : List Nat)
    (i r : Nat) (hi : i < idxs.length) (hr : r < csz) :
    nthD d (copyListLoop d src csz idxs 0 (List.replicate (idxs.length * csz) x))
      (i * csz + r) = nthD d src (nthD 0 idxs i * csz + r) := by
  have h0 : i * csz + r = (0 + i) * csz + r := by
    simp
  rw [h0]
  exact nthD_copyListLoop_main d src csz idxs 0 _ i r hi hr (by simp)

/-- C7: for a valid view over a well-formed table, `NewTable` yields the
view's logical length as row count (including 0), preserves the schema,
returns the untouched fresh zero-row table when the view is empty, and
otherwise every logical row `i` of every column holds, at each cell offset
`r`, the source element at flat offset `Idxs[i]*csz + r`. -/
theorem C7_newtable_shape (ix : IdxTable) (_hv : ix.validIdxs) (_hwf : ix.table.wf) :
    ix.newTable.rows = ix.idxs.length ∧
    ix.newTable.schema = ix.table.schema ∧
    (ix.idxs = [] → ix.newTable = Table.new ix.table.schema 0) ∧
    (∀ ci, ci < ix.table.cols.length → ∀ i, i < ix.idxs.length →
      ∀ r, r < (nthD emptyCol ix.table.cols ci).csz →
        nthD FV.nan (nthD emptyCol ix.newTable.cols ci).fvals
            (i * (nthD emptyCol ix.table.cols ci).csz + r) =
          nthD FV.nan (nthD emptyCol ix.table.cols ci).fvals
            (nthD 0 ix.idxs i * (nthD emptyCol ix.table.cols ci).csz + r) ∧
        nthD "" (nthD emptyCol ix.newTable.cols ci).svals
            (i * (nthD emptyCol ix.table.cols ci).csz + r) =
          nthD "" (nthD emptyCol ix.table.cols ci).svals
            (nthD 0 ix.idxs i * (nthD emptyCol ix.table.cols ci).csz + r) ∧
        nthD false (nthD emptyCol ix.newTable.cols ci).nulls
            (i * (nthD emptyCol ix.table.cols ci).csz + r) =
          nthD false (nthD emptyCol ix.table.cols ci).nulls
            (nthD 0 ix.idxs i * (nthD emptyCol ix.table.cols ci).csz + r)) := by
  refine ⟨newTable_rows ix, newTable_schema ix, ?_, ?_⟩
  · intro h
    unfold IdxTable.newTable
    rw [if_pos (by simp [h])]
    rw [h]
    rfl
  · intro ci hci i hi r hr
    have hne : ix.idxs ≠ [] := by
      intro h
      rw [h] at hi
      simp at hi
    rw [newTable_col ix hne ci hci, copyColLoop_eq]
    refine ⟨?_, ?_, ?_⟩
    · show nthD FV.nan (copyListLoop FV.nan _ _ _ 0
        (freshCol (nthD emptyCol ix.table.cols ci) ix.idxs.length).fvals) _ = _
      rw [show (freshCol (nthD emptyCol ix.table.cols ci) ix.idxs.length).fvals =
          List.replicate (ix.idxs.length * (nthD emptyCol ix.table.cols ci).csz)
            (FV.v 0) from rfl]
      exact newtable_read FV.nan (FV.v 0) _ _ ix.idxs i r hi hr
    · show nthD "" (copyListLoop "" _ _ _ 0
        (freshCol (nthD emptyCol ix.table.cols ci) ix.idxs.length).svals) _ = _
      rw [show (freshCol (nthD emptyCol ix.table.cols ci) ix.idxs.length).svals =
          List.replicate (ix.idxs.length * (nthD emptyCol ix.table.cols ci).csz)
            "" from rfl]
      exact newtable_read "" "" _ _ ix.idxs i r hi hr
    · show nthD false (copyListLoop false _ _ _ 0
        (freshCol (nthD emptyCol ix.table.cols ci) ix.idxs.length).nulls) _ = _
      rw [show (freshCol (nthD emptyCol ix.table.cols ci) ix.idxs.length).nulls =
          List.replicate (ix.idxs.length * (nthD emptyCol ix.table.cols ci).csz)
            false from rfl]
      exact newtable_read false false _ _ ix.idxs i r hi hr

/-- Witness for C7 on the duplicated-row view `rtIx` of `rtT`
(indexes `[1, 0, 1]`), instantiated at column 0, logical row 2, cell
offset 1. -/
theorem C7_newtable_shape_witness :
    rtIx.validIdxs ∧ rtT.wf ∧
    rtIx.newTable.rows = rtIx.idxs.length ∧
    rtIx.newTable.schema = rtIx.table.schema ∧
    nthD FV.nan (nthD emptyCol rtIx.newTable.cols 0).fvals
        (2 * (nthD emptyCol rtIx.table.cols 0).csz + 1) =
      nthD FV.nan (nthD emptyCol rtIx.table.cols 0).fvals
        (nthD 0 rtIx.idxs 2 * (nthD emptyCol rtIx.table.cols 0).csz + 1) := by
  have h := C7_newtable_shape rtIx (by decide) (by decide)
  exact ⟨by decide, by decide, h.1, h.2.1,
    (h.2.2.2 0 (by decide) 2 (by decide) 1 (by decide)).1⟩

/-- C8: `Clone` shares the table reference, gives the clone an index
sequence with the same values in the same order in fresh memory, and
in-place `Filter`/`Sort` on either of the two views never changes the
other's index sequence. -/
theorem C8_clone_independence (s : Store) (v : HView) (h : v.idxsAddr < s.length) :
    (hClone s v).2.tableRef = v.tableRef ∧
    (hClone s v).2.idxsAddr ≠ v.idxsAddr ∧
    storeGet (hClone s v).1 (hClone s v).2.idxsAddr = storeGet s v.idxsAddr ∧
    (∀ p, storeGet (hFilter p (hClone s v).1 (hClone s v).2) v.idxsAddr =
      storeGet s v.idxsAddr) ∧
    (∀ less, storeGet (hSort less (hClone s v).1 (hClone s v).2) v.idxsAddr =
      storeGet s v.idxsAddr) ∧
    (∀ p, storeGet (hFilter p (hClone s v).1 v) (hClone s v).2.idxsAddr =
      storeGet (hClone s v).1 (hClone s v).2.idxsAddr) ∧
    (∀ less, storeGet (hSort less (hClone s v).1 v) (hClone s v).2.idxsAddr =
      storeGet (hClone s v).1 (hClone s v).2.idxsAddr) := by
  have hne : s.length ≠ v.idxsAddr := by omega
  have hcloneGet : storeGet (hClone s v).1 (hClone s v).2.idxsAddr =
      storeGet s v.idxsAddr := by
    show nthD [] (s ++ [storeGet s v.idxsAddr]) s.length = _
    exact nthD_append_self [] s [] _
  have horigGet : storeGet (hClone s v).1 v.idxsAddr = storeGet s v.idxsAddr := by
    show nthD [] (s ++ [storeGet s v.idxsAddr]) v.idxsAddr = _
    exact nthD_append_lt [] s _ v.idxsAddr h
  refine ⟨rfl, hne, hcloneGet, ?_, ?_, ?_, ?_⟩
  · intro p
    show nthD [] (setAt (hClone s v).1 s.length _) v.idxsAddr = _
    rw [nthD_setAt_ne [] _ s.length v.idxsAddr _ hne]
    exact horigGet
  · intro less
    show nthD [] (setAt (hClone s v).1 s.length _) v.idxsAddr = _
    rw [nthD_setAt_ne [] _ s.length v.idxsAddr _ hne]
    exact horigGet
  · intro p
    show nthD [] (setAt (hClone s v).1 v.idxsAddr _) s.length = _
    rw [nthD_setAt_ne [] _ v.idxsAddr s.length _ (by omega)]
    rfl
  · intro less
    show nthD [] (setAt (hClone s v).1 v.idxsAddr _) s.length = _
    rw [nthD_setAt_ne [] _ v.idxsAddr s.length _ (by omega)]
    rfl

/-- Witness for C8: the one-slice store `s8` with view `v8`, a concrete
predicate and a concrete comparator. -/
theorem C8_clone_independence_witness :
    (hClone s8 v8).2.tableRef = v8.tableRef ∧
    (hClone s8 v8).2.idxsAddr ≠ v8.idxsAddr ∧
    storeGet (hClone s8 v8).1 (hClone s8 v8).2.idxsAddr = storeGet s8 v8.idxsAddr ∧
    storeGet (hFilter p8 (hClone s8 v8).1 (hClone s8 v8).2) v8.idxsAddr =
      storeGet s8 v8.idxsAddr ∧
    storeGet (hSort less8 (hClone s8 v8).1 (hClone s8 v8).2) v8.idxsAddr =
      storeGet s8 v8.idxsAddr ∧
    storeGet (hFilter p8 (hClone s8 v8).1 v8) (hClone s8 v8).2.idxsAddr =
      storeGet (hClone s8 v8).1 (hClone s8 v8).2.idxsAddr ∧
    storeGet (hSort less8 (hClone s8 v8).1 v8) (hClone s8 v8).2.idxsAddr =
      storeGet (hClone s8 v8).1 (hClone s8 v8).2.idxsAddr := by
  have h := C8_clone_independence s8 v8 (by decide)
  exact ⟨h.1, h.2.1, h.2.2.1, h.2.2.2.1 p8, h.2.2.2.2.1 less8,
    h.2.2.2.2.2.1 p8, h.2.2.2.2.2.2 less8⟩

/-- C9: for a column tensor with at least one row, `ClosestRow32` and
`ClosestRow64` fail (the panic, modelled `none`) exactly when the probe's
length differs from the column's cell size — with no partial result — and
when the sizes match both return a `(row, metric)` pair. -/
theorem C9_closest_row_shape (probe col : ETensor) (m32 m64 : List FV → List FV → FV)
    (hr : 0 < col.rows) :
    (col.vals.length / col.rows ≠ probe.vals.length →
      ClosestRow32 probe col m32 = none ∧ ClosestRow64 probe col m64 = none) ∧
    (col.vals.length / col.rows = probe.vals.length →
      (∃ rv, ClosestRow32 probe col m32 = some rv) ∧
      (∃ rv, ClosestRow64 probe col m64 = some rv)) := by
  have hnz : ¬ col.rows = 0 := by omega
  constructor
  · intro hmm
    unfold ClosestRow32 ClosestRow64
    rw [if_neg hnz, if_pos hmm, if_neg hnz, if_pos hmm]
    exact ⟨rfl, rfl⟩
  · intro hmatch
    unfold ClosestRow32 ClosestRow64
    rw [if_neg hnz, if_neg (by omega), if_neg hnz, if_neg (by omega)]
    exact ⟨⟨_, rfl⟩, ⟨_, rfl⟩⟩

/-- Witness for C9: the length-2 probe against the cell-size-1 column fails
on both helpers; the length-1 probe matches and returns a result. -/
theorem C9_closest_row_shape_witness :
    (ClosestRow32 probe9 col9 m9 = none ∧ ClosestRow64 probe9 col9 m9 = none) ∧
    (∃ rv, ClosestRow32 probe9m col9 m9 = some rv) ∧
    (∃ rv, ClosestRow64 probe9m col9 m9 = some rv) :=
  ⟨(C9_closest_row_shape probe9 col9 m9 m9 (by decide)).1 (by decide),
   (C9_closest_row_shape probe9m col9 m9 m9 (by decide)).2 (by decide)⟩

end ETable
